import Mathlib

/-!
Verification of the vocabulary-index / sampling core of `article_corpus.py`
(class `ArticleCorpus`).  Python dicts are modelled as association lists that
preserve insertion order (as Python dicts do); machine floats are modelled as
real numbers; the random sources consumed by the samplers are passed in as
explicit parameters.
-/

/-- First-match lookup in an insertion-ordered association list (Python `d[k]`,
returning `none` where Python raises `KeyError`). -/
def lookupA {α β : Type} [DecidableEq α] : List (α × β) → α → Option β
  | [], _ => none
  | (a, b) :: m, k => if a = k then some b else lookupA m k

/-- Python `d[k] = v`: replace the value at an existing key in place, otherwise
append the binding at the end (insertion order preserved). -/
def updateA {α β : Type} [DecidableEq α] : List (α × β) → α → β → List (α × β)
  | [], k, v => [(k, v)]
  | (a, b) :: m, k, v => if a = k then (k, v) :: m else (a, b) :: updateA m k v

/-- Lookup with a default value. -/
def lookupD {α β : Type} [DecidableEq α] (m : List (α × β)) (k : α) (dflt : β) : β :=
  (lookupA m k).getD dflt

/-- State of an `ArticleCorpus` object: the fields `_corpus`, `_vocab`,
`_corpus_size`, `_vocab_size`, `_word_to_idx`, `_idx_to_word`,
`_word_to_freq` and `_word_to_rejection_prob` of the Python class. -/
structure ArticleCorpus where
  corpus : List (List String)
  vocab : List String
  corpus_size : Nat
  vocab_size : Nat
  word_to_idx : List (String × Nat)
  idx_to_word : List (Nat × String)
  word_to_freq : List (String × Nat)
  word_to_rejection_prob : List (String × ℝ)

/-- The field state set up at the top of `__init__`, before `add_data` runs. -/
def initState : ArticleCorpus :=
  { corpus := [], vocab := [], corpus_size := 0, vocab_size := 0,
    word_to_idx := [], idx_to_word := [], word_to_freq := [],
    word_to_rejection_prob := [] }

/-- The new-word branch of `add_data`'s inner loop (also used for the `UNK`
sentinel): append to `_vocab`, assign the next index in both directions,
initialise the frequency to 1, and bump `_vocab_size`. -/
def assignWord (s : ArticleCorpus) (w : String) : ArticleCorpus :=
  { s with vocab := s.vocab ++ [w],
           word_to_idx := updateA s.word_to_idx w s.vocab_size,
           idx_to_word := updateA s.idx_to_word s.vocab_size w,
           word_to_freq := updateA s.word_to_freq w 1,
           vocab_size := s.vocab_size + 1 }

/-- One iteration of `add_data`'s token loop: bump `_corpus_size`; if the word
is already in `_vocab` increment its frequency, otherwise register it. -/
def addWord (s : ArticleCorpus) (w : String) : ArticleCorpus :=
  let t := { s with corpus_size := s.corpus_size + 1 }
  if w ∈ t.vocab then
    { t with word_to_freq := updateA t.word_to_freq w (lookupD t.word_to_freq w 0 + 1) }
  else
    assignWord t w

/-- The trailing `UNK` block of `add_data`: insert the sentinel once, with
frequency 1, at the next free index. -/
def addUNK (s : ArticleCorpus) : ArticleCorpus :=
  if "UNK" ∈ s.vocab then s else assignWord s "UNK"

/-- `add_data` on an already-tokenized batch: extend `_corpus`, process every
token of every article in order, then ensure the `UNK` sentinel exists. -/
def add_data (s : ArticleCorpus) (data : List (List String)) : ArticleCorpus :=
  addUNK (data.flatten.foldl addWord { s with corpus := s.corpus ++ data })

/-- The hard-coded subsampling threshold (`threshold = 10`). -/
def subsampling_threshold : ℝ := 10

/-- `max(0, 1.0 - np.sqrt(threshold / word_freq))` for a word of frequency `f`. -/
noncomputable def rejection_prob_value (f : Nat) : ℝ :=
  max 0 (1 - Real.sqrt (subsampling_threshold / (f : ℝ)))

/-- `_get_rejection_prob`: for each `i` in `range(_vocab_size)` write the
rejection probability of `_vocab[i]` into `_word_to_rejection_prob`. -/
noncomputable def get_rejection_prob (s : ArticleCorpus) : ArticleCorpus :=
  let rp := (List.range s.vocab_size).foldl
    (fun m i =>
      let word := s.vocab.getD i ""
      updateA m word (rejection_prob_value (lookupD s.word_to_freq word 0)))
    s.word_to_rejection_prob
  { s with word_to_rejection_prob := rp }

/-- `__init__` on an already-validated token batch: zero-initialise all fields,
run `add_data`, then `_get_rejection_prob`. -/
noncomputable def constructState (d : List (List String)) : ArticleCorpus :=
  get_rejection_prob (add_data initState d)

/-- The context slice of `get_random_context` before the center word is
filtered out: `doc_text[max(0, c_idx - window) : c_idx]`, extended (when
`c_idx + 1 < len(doc_text)`) by `doc_text[c_idx + 1 : min(c_idx + window,
len(doc_text))]`. -/
def raw_context (doc_text : List String) (c_idx window : Nat) : List String :=
  let context := (doc_text.take c_idx).drop (c_idx - window)
  if c_idx + 1 < doc_text.length then
    context ++ (doc_text.take (min (c_idx + window) doc_text.length)).drop (c_idx + 1)
  else context

/-- The context window as the specification describes it: up to `window`
tokens immediately preceding the center position and up to `window` tokens
immediately following it, clamped to the sequence ends. -/
def spec_context (doc_text : List String) (c_idx window : Nat) : List String :=
  (doc_text.take c_idx).drop (c_idx - window) ++ (doc_text.drop (c_idx + 1)).take window

/-- The tail of one `get_random_context` attempt, once a filtered document
`doc_text` and a center position `c_idx` have been drawn: build the window,
remove every occurrence of the center word, and return the pair unless the
context came out empty (in which case the Python code retries). -/
def context_attempt (doc_text : List String) (c_idx window : Nat) :
    Option (String × List String) :=
  let center_word := doc_text.getD c_idx ""
  let context := (raw_context doc_text c_idx window).filter (fun w => w ≠ center_word)
  if 0 < context.length then some (center_word, context) else none

/-- `get_random_context` with its retry recursion made explicit: try `n`
draws `tries 0, tries 1, ...` (each a filtered document together with a center
position, abstracting the document pick, the rejection filter and
`random.randint`), returning the first attempt that yields a non-empty
context. -/
def get_random_context_fuel (window : Nat) (tries : Nat → List String × Nat) :
    Nat → Option (String × List String)
  | 0 => none
  | n + 1 =>
    match context_attempt (tries n).1 (tries n).2 window with
    | some p => some p
    | none => get_random_context_fuel window tries n

/-- The rejection filter of `get_random_context` applied to one selected
document: each token draws `r k` from the random source and is kept when
`r k ≥ _word_to_rejection_prob[word]` and `_word_to_freq[word] ≥ 1`.  A word
missing from either dict makes the whole call fail with a `KeyError` on that
word (the frequency lookup is short-circuited when the token is rejected). -/
noncomputable def filter_doc (s : ArticleCorpus) (r : Nat → ℝ) :
    List String → Nat → Except String (List String)
  | [], _ => .ok []
  | w :: ws, k =>
    match lookupA s.word_to_rejection_prob w with
    | none => .error w
    | some rp =>
      if r k < rp then filter_doc s r ws (k + 1)
      else
        match lookupA s.word_to_freq w with
        | none => .error w
        | some f =>
          match filter_doc s r ws (k + 1) with
          | .error e => .error e
          | .ok rest => .ok (if 1 ≤ f then w :: rest else rest)

/-- The smoothed unigram weight `freq ** 0.75`. -/
noncomputable def w75 (v : Nat) : ℝ := (v : ℝ) ^ (0.75 : ℝ)

/-- `normalizing_factor`: the sum of `v ** 0.75` over the values of
`_word_to_freq`, in iteration order. -/
noncomputable def normalizing_factor (s : ArticleCorpus) : ℝ :=
  (s.word_to_freq.map (fun p => w75 p.2)).sum

/-- `sampling_probs` after the normalisation step: a vector of length
`_vocab_size` whose `i`-th entry is the smoothed weight of the `i`-th entry of
`_word_to_freq` (0 where the dict has fewer entries, matching `np.zeros`),
divided by the normalizing factor. -/
noncomputable def sampling_probs (s : ArticleCorpus) : List ℝ :=
  (List.range s.vocab_size).map
    (fun i =>
      (match s.word_to_freq.get? i with
       | some p => w75 p.2
       | none => 0) / normalizing_factor s)

/-- Expansion of multinomial counts into a flat result list, starting at
index `i`: `for idx, count in enumerate(sample): result += [idx] * count`. -/
def expandAux : Nat → List Nat → List Nat
  | _, [] => []
  | i, c :: cs => List.replicate c i ++ expandAux (i + 1) cs

/-- `result` built by one iteration of the `while True` loop of
`sample_negative_words` from the multinomial draw `counts`. -/
def expandCounts (counts : List Nat) : List Nat := expandAux 0 counts

/-- What `np.random.multinomial(k, sampling_probs)` guarantees about a draw:
one count per vocabulary index, summing to `k`. -/
def MultinomialDraw (s : ArticleCorpus) (k : Nat) (c : List Nat) : Prop :=
  c.length = s.vocab_size ∧ c.sum = k

/-- The generator `sample_negative_words`, with the multinomial randomness
source passed explicitly: the `n`-th yielded value is the expansion of the
`n`-th draw, independent of all earlier productions. -/
def sample_negative_words (s : ArticleCorpus) (num_negative : Nat)
    (draws : Nat → List Nat) (n : Nat) : List Nat :=
  expandCounts (draws n)

/-- `List.enum` with an explicit starting index, used to state the exact shape
of the index maps. -/
def enumF : Nat → List String → List (Nat × String)
  | _, [] => []
  | i, w :: ws => (i, w) :: enumF (i + 1) ws

/-- Structural invariant of the mutable state, maintained by construction and
ingestion: the vocabulary is duplicate-free, `_vocab_size` counts it, the two
index maps are exactly the enumeration of `_vocab` (in the two directions),
the frequency dict is keyed by `_vocab` in order, and all frequencies are
positive. -/
def CorpusInv (s : ArticleCorpus) : Prop :=
  s.vocab_size = s.vocab.length ∧
  s.vocab.Nodup ∧
  s.word_to_idx = (enumF 0 s.vocab).map (fun p => (p.2, p.1)) ∧
  s.idx_to_word = enumF 0 s.vocab ∧
  s.word_to_freq.map Prod.fst = s.vocab ∧
  (∀ p ∈ s.word_to_freq, 1 ≤ p.2)

/-- `CorpusInv` together with the presence of the `UNK` sentinel: the
invariant of every state reachable through `__init__` and `add_data`. -/
def CorpusInvU (s : ArticleCorpus) : Prop :=
  CorpusInv s ∧ "UNK" ∈ s.vocab

/-- A Python value, as far as the dynamic checks of `__init__` can observe
one: a string, an integer, or a list. -/
inductive PyVal where
  | vstr : String → PyVal
  | vint : Int → PyVal
  | vlist : List PyVal → PyVal

/-- The kinds of exception `__init__` can raise: a failed `assert` (with its
message), an out-of-range subscript, or an unsupported-operation error. -/
inductive PyErr where
  | assertionError : String → PyErr
  | indexError : PyErr
  | typeError : PyErr

/-- `type(v) == list`. -/
def isListV : PyVal → Bool
  | .vlist _ => true
  | _ => false

/-- Whether `for x in v` is legal: lists and strings iterate, integers raise
`TypeError`. -/
def isIterableV : PyVal → Bool
  | .vint _ => false
  | _ => true

/-- The sequence a `for` loop traverses: the elements of a list, or the
one-character strings of a string. -/
def tokensOf : PyVal → List PyVal
  | .vlist xs => xs
  | .vstr s => s.data.map (fun c => .vstr (String.mk [c]))
  | .vint _ => []

/-- The token loop of `add_data` over one article's tokens, as far as raising
is concerned: the first list-valued token raises `TypeError` when it is used
as a dict key (lists are unhashable); all other values are hashable. -/
def processTokens : List PyVal → Except PyErr Unit
  | [] => .ok ()
  | t :: ts => if isListV t then .error .typeError else processTokens ts

/-- The article loop of `add_data`: a non-iterable article raises `TypeError`
at the `for word in article` header, otherwise its tokens are processed. -/
def processArticles : List PyVal → Except PyErr Unit
  | [] => .ok ()
  | a :: rest =>
    if isIterableV a then
      match processTokens (tokensOf a) with
      | .ok _ => processArticles rest
      | .error e => .error e
    else .error .typeError

/-- The dynamic behaviour of `__init__` on an arbitrary Python value:
`assert type(corpus) == list` (AssertionError), then `corpus[0]` (IndexError
on the empty list), then `assert type(corpus[0]) == list`, then the
`add_data` loops; `_get_rejection_prob` never raises. -/
def constructPy (corpus : PyVal) : Except PyErr Unit :=
  match corpus with
  | .vlist [] => .error .indexError
  | .vlist (x :: xs) =>
    if isListV x then processArticles (x :: xs)
    else .error (.assertionError "Error: corpus should be list of lists")
  | _ => .error (.assertionError "Error: corpus should be list of lists")

/-- Classifier for the error family the specification calls
`InvalidInputError`: the assertion failures of the input-validation checks. -/
def isInvalidInputErr : Except PyErr Unit → Bool
  | .error (.assertionError _) => true
  | _ => false

/-- The state reached by `__init__` on batch `d` followed by one `add_data`
call per element of `batches`, in order. -/
noncomputable def reachState (d : List (List String))
    (batches : List (List (List String))) : ArticleCorpus :=
  batches.foldl add_data (constructState d)

/-! ### Association-list lemmas -/

theorem lookupA_updateA_self {α β : Type} [DecidableEq α] (m : List (α × β)) (k : α) (v : β) :
    lookupA (updateA m k v) k = some v := by
  induction m with
  | nil => simp [updateA, lookupA]
  | cons p m ih =>
    by_cases h : p.1 = k
    · simp [updateA, lookupA, h]
    · simp [updateA, lookupA, h, ih]

theorem lookupA_updateA_ne {α β : Type} [DecidableEq α] (m : List (α × β)) {k k' : α} (v : β)
    (h : k' ≠ k) : lookupA (updateA m k v) k' = lookupA m k' := by
  induction m with
  | nil => simp [updateA, lookupA, Ne.symm h]
  | cons p m ih =>
    by_cases hp : p.1 = k
    · simp [updateA, lookupA, hp, Ne.symm h]
    · simp only [updateA, hp, if_false, lookupA, ih]

theorem updateA_of_not_mem {α β : Type} [DecidableEq α] (m : List (α × β)) {k : α} (v : β)
    (h : k ∉ m.map Prod.fst) : updateA m k v = m ++ [(k, v)] := by
  induction m with
  | nil => simp [updateA]
  | cons p m ih =>
    simp only [List.map_cons, List.mem_cons] at h
    push_neg at h
    simp [updateA, Ne.symm h.1, ih h.2]

theorem map_fst_updateA_of_mem {α β : Type} [DecidableEq α] (m : List (α × β)) {k : α} (v : β)
    (h : k ∈ m.map Prod.fst) : (updateA m k v).map Prod.fst = m.map Prod.fst := by
  induction m with
  | nil => simp at h
  | cons p m ih =>
    by_cases hp : p.1 = k
    · simp [updateA, hp]
    · simp only [List.map_cons, List.mem_cons] at h
      rcases h with h | h
      · exact absurd h.symm hp
      · simp [updateA, hp, ih h]

theorem mem_updateA {α β : Type} [DecidableEq α] {m : List (α × β)} {k : α} {v : β}
    {p : α × β} (h : p ∈ updateA m k v) : p = (k, v) ∨ p ∈ m := by
  induction m with
  | nil => simpa [updateA] using h
  | cons q m ih =>
    by_cases hq : q.1 = k
    · simp only [updateA, hq, if_true, List.mem_cons] at h
      rcases h with h | h
      · exact Or.inl h
      · exact Or.inr (List.mem_cons_of_mem _ h)
    · simp only [updateA, hq, if_false, List.mem_cons] at h
      rcases h with h | h
      · exact Or.inr (by simp [h])
      · rcases ih h with h' | h'
        · exact Or.inl h'
        · exact Or.inr (List.mem_cons_of_mem _ h')

theorem lookupA_eq_none {α β : Type} [DecidableEq α] (m : List (α × β)) (k : α)
    (h : k ∉ m.map Prod.fst) : lookupA m k = none := by
  induction m with
  | nil => rfl
  | cons p m ih =>
    simp only [List.map_cons, List.mem_cons] at h
    push_neg at h
    simp [lookupA, Ne.symm h.1, ih h.2]

theorem lookupA_isSome_of_mem {α β : Type} [DecidableEq α] (m : List (α × β)) (k : α)
    (h : k ∈ m.map Prod.fst) : ∃ v, lookupA m k = some v := by
  induction m with
  | nil => simp at h
  | cons p m ih =>
    by_cases hp : p.1 = k
    · exact ⟨p.2, by simp [lookupA, hp]⟩
    · simp only [List.map_cons, List.mem_cons] at h
      rcases h with h | h
      · exact absurd h.symm hp
      · simpa [lookupA, hp] using ih h

/-! ### `enumF` lemmas -/

theorem enumF_append (i : Nat) (l : List String) (a : String) :
    enumF i (l ++ [a]) = enumF i l ++ [(i + l.length, a)] := by
  induction l generalizing i with
  | nil => simp [enumF]
  | cons w ws ih => simp [enumF, ih, Nat.add_assoc, Nat.add_comm 1 ws.length]

theorem enumF_map_snd (i : Nat) (l : List String) :
    (enumF i l).map Prod.snd = l := by
  induction l generalizing i with
  | nil => rfl
  | cons w ws ih => simp [enumF, ih]

theorem enumF_map_fst (i : Nat) (l : List String) :
    (enumF i l).map Prod.fst = List.range' i l.length := by
  induction l generalizing i with
  | nil => rfl
  | cons w ws ih => simp [enumF, ih, List.range']

theorem lookupA_enumF (l : List String) (j k : Nat) :
    lookupA (enumF j l) k = if j ≤ k then l.get? (k - j) else none := by
  induction l generalizing j with
  | nil => simp [enumF, lookupA]
  | cons w ws ih =>
    simp only [enumF, lookupA]
    by_cases h : j = k
    · simp [h]
    · rw [if_neg h, ih (j + 1)]
      by_cases h2 : j ≤ k
      · have hk : j + 1 ≤ k := by omega
        rw [if_pos hk, if_pos h2]
        have : k - j = (k - (j + 1)) + 1 := by omega
        simp [this]
      · rw [if_neg (by omega), if_neg h2]

theorem lookupA_enumF_swap (l : List String) (j : Nat) (w : String) :
    lookupA ((enumF j l).map (fun p => (p.2, p.1))) w =
      if w ∈ l then some (j + l.indexOf w) else none := by
  induction l generalizing j with
  | nil => simp [enumF, lookupA]
  | cons a as ih =>
    simp only [enumF, List.map_cons, lookupA]
    by_cases h : a = w
    · simp [h, List.indexOf_cons]
    · rw [if_neg h, ih (j + 1)]
      by_cases h2 : w ∈ as
      · rw [if_pos h2, if_pos (List.mem_cons_of_mem _ h2)]
        simp [List.indexOf_cons, h]
        omega
      · rw [if_neg h2, if_neg (by simp [List.mem_cons, h2, Ne.symm h])]

/-! ### Field bookkeeping for the ingestion operations -/

theorem addWord_vocab (s : ArticleCorpus) (w : String) :
    (addWord s w).vocab = if w ∈ s.vocab then s.vocab else s.vocab ++ [w] := by
  simp only [addWord, assignWord]
  split <;> rfl

theorem addWord_corpus (s : ArticleCorpus) (w : String) :
    (addWord s w).corpus = s.corpus := by
  simp only [addWord, assignWord]
  split <;> rfl

theorem addWord_rp (s : ArticleCorpus) (w : String) :
    (addWord s w).word_to_rejection_prob = s.word_to_rejection_prob := by
  simp only [addWord, assignWord]
  split <;> rfl

theorem addWord_freq_lookup_ne (s : ArticleCorpus) {w w' : String} (h : w' ≠ w) :
    lookupA (addWord s w).word_to_freq w' = lookupA s.word_to_freq w' := by
  simp only [addWord, assignWord]
  split <;> exact lookupA_updateA_ne _ _ h

theorem foldl_addWord_corpus (l : List String) (s : ArticleCorpus) :
    (l.foldl addWord s).corpus = s.corpus := by
  induction l generalizing s with
  | nil => rfl
  | cons w ws ih => rw [List.foldl_cons, ih, addWord_corpus]

theorem foldl_addWord_rp (l : List String) (s : ArticleCorpus) :
    (l.foldl addWord s).word_to_rejection_prob = s.word_to_rejection_prob := by
  induction l generalizing s with
  | nil => rfl
  | cons w ws ih => rw [List.foldl_cons, ih, addWord_rp]

theorem foldl_addWord_freq_lookup (l : List String) (s : ArticleCorpus) {w' : String}
    (h : w' ∉ l) : lookupA (l.foldl addWord s).word_to_freq w' = lookupA s.word_to_freq w' := by
  induction l generalizing s with
  | nil => rfl
  | cons w ws ih =>
    simp only [List.mem_cons] at h
    push_neg at h
    rw [List.foldl_cons, ih _ h.2, addWord_freq_lookup_ne _ h.1]

theorem mem_vocab_addWord {x : String} (s : ArticleCorpus) (w : String) (h : x ∈ s.vocab) :
    x ∈ (addWord s w).vocab := by
  rw [addWord_vocab]
  split
  · exact h
  · exact List.mem_append_left _ h

theorem mem_vocab_foldl_addWord {x : String} (l : List String) (s : ArticleCorpus)
    (h : x ∈ s.vocab) : x ∈ (l.foldl addWord s).vocab := by
  induction l generalizing s with
  | nil => exact h
  | cons w ws ih => exact ih _ (mem_vocab_addWord _ _ h)

theorem mem_vocab_foldl_cases {x : String} (l : List String) (s : ArticleCorpus)
    (h : x ∈ (l.foldl addWord s).vocab) : x ∈ s.vocab ∨ x ∈ l := by
  induction l generalizing s with
  | nil => exact Or.inl h
  | cons w ws ih =>
    rcases ih _ h with h' | h'
    · rw [addWord_vocab] at h'
      split at h'
      · exact Or.inl h'
      · rcases List.mem_append.1 h' with h'' | h''
        · exact Or.inl h''
        · simp only [List.mem_singleton] at h''
          exact Or.inr (by simp [h''])
    · exact Or.inr (List.mem_cons_of_mem _ h')

theorem addUNK_rp (s : ArticleCorpus) :
    (addUNK s).word_to_rejection_prob = s.word_to_rejection_prob := by
  simp only [addUNK, assignWord]
  split <;> rfl

theorem addUNK_corpus (s : ArticleCorpus) : (addUNK s).corpus = s.corpus := by
  simp only [addUNK, assignWord]
  split <;> rfl

theorem mem_vocab_addUNK (s : ArticleCorpus) : "UNK" ∈ (addUNK s).vocab := by
  simp only [addUNK, assignWord]
  split
  · assumption
  · exact List.mem_append_right _ (by simp)

theorem mem_vocab_addUNK_of_mem {x : String} (s : ArticleCorpus) (h : x ∈ s.vocab) :
    x ∈ (addUNK s).vocab := by
  simp only [addUNK, assignWord]
  split
  · exact h
  · exact List.mem_append_left _ h

theorem grp_vocab (s : ArticleCorpus) : (get_rejection_prob s).vocab = s.vocab := rfl

theorem grp_vocab_size (s : ArticleCorpus) :
    (get_rejection_prob s).vocab_size = s.vocab_size := rfl

theorem grp_corpus (s : ArticleCorpus) : (get_rejection_prob s).corpus = s.corpus := rfl

theorem grp_corpus_size (s : ArticleCorpus) :
    (get_rejection_prob s).corpus_size = s.corpus_size := rfl

theorem grp_word_to_idx (s : ArticleCorpus) :
    (get_rejection_prob s).word_to_idx = s.word_to_idx := rfl

theorem grp_idx_to_word (s : ArticleCorpus) :
    (get_rejection_prob s).idx_to_word = s.idx_to_word := rfl

theorem grp_word_to_freq (s : ArticleCorpus) :
    (get_rejection_prob s).word_to_freq = s.word_to_freq := rfl

/-! ### Preservation of the structural invariant -/

theorem corpusInv_assignWord {s : ArticleCorpus} (h : CorpusInv s) {w : String}
    (hw : w ∉ s.vocab) : CorpusInv (assignWord s w) := by
  obtain ⟨hsize, hnodup, hidx, hitw, hfreq, hpos⟩ := h
  refine ⟨?_, ?_, ?_, ?_, ?_, ?_⟩
  · simp [assignWord, hsize]
  · exact List.nodup_append.2 ⟨hnodup, List.nodup_singleton w, by
      intro x hx hx'
      simp only [List.mem_singleton] at hx'
      exact hw (hx' ▸ hx)⟩
  · have hkeys : w ∉ (s.word_to_idx.map Prod.fst) := by
      rw [hidx, List.map_map]
      have : (Prod.fst ∘ fun p : Nat × String => (p.2, p.1)) = Prod.snd := rfl
      rw [this, enumF_map_snd]
      exact hw
    show updateA s.word_to_idx w s.vocab_size =
      (enumF 0 (s.vocab ++ [w])).map (fun p => (p.2, p.1))
    rw [updateA_of_not_mem _ _ hkeys, enumF_append, List.map_append, hidx, hsize]
    simp
  · have hkeys : s.vocab_size ∉ (s.idx_to_word.map Prod.fst) := by
      rw [hitw, enumF_map_fst, List.mem_range'_1]
      omega
    show updateA s.idx_to_word s.vocab_size w = enumF 0 (s.vocab ++ [w])
    rw [updateA_of_not_mem _ _ hkeys, enumF_append, hitw, hsize]
    simp
  · have hkeys : w ∉ (s.word_to_freq.map Prod.fst) := by rw [hfreq]; exact hw
    show (updateA s.word_to_freq w 1).map Prod.fst = s.vocab ++ [w]
    rw [updateA_of_not_mem _ _ hkeys, List.map_append, hfreq]
    rfl
  · intro p hp
    rcases mem_updateA hp with h' | h'
    · simp [h']
    · exact hpos p h'

theorem corpusInv_addWord {s : ArticleCorpus} (h : CorpusInv s) (w : String) :
    CorpusInv (addWord s w) := by
  by_cases hw : w ∈ s.vocab
  · obtain ⟨hsize, hnodup, hidx, hitw, hfreq, hpos⟩ := h
    have hkeys : w ∈ s.word_to_freq.map Prod.fst := by rw [hfreq]; exact hw
    simp only [addWord, if_pos hw]
    refine ⟨hsize, hnodup, hidx, hitw, ?_, ?_⟩
    · show (updateA s.word_to_freq w _).map Prod.fst = s.vocab
      rw [map_fst_updateA_of_mem _ _ hkeys, hfreq]
    · intro p hp
      rcases mem_updateA hp with h' | h'
      · simp [h']
      · exact hpos p h'
  · simp only [addWord, if_neg hw]
    exact corpusInv_assignWord h hw

theorem corpusInv_foldl_addWord (l : List String) {s : ArticleCorpus} (h : CorpusInv s) :
    CorpusInv (l.foldl addWord s) := by
  induction l generalizing s with
  | nil => exact h
  | cons w ws ih => exact ih (corpusInv_addWord h w)

theorem corpusInv_addUNK {s : ArticleCorpus} (h : CorpusInv s) : CorpusInv (addUNK s) := by
  unfold addUNK
  split
  · exact h
  · exact corpusInv_assignWord h (by assumption)

theorem corpusInvU_add_data {s : ArticleCorpus} (h : CorpusInv s)
    (data : List (List String)) : CorpusInvU (add_data s data) := by
  unfold add_data
  have h1 : CorpusInv (data.flatten.foldl addWord { s with corpus := s.corpus ++ data }) :=
    corpusInv_foldl_addWord _ h
  exact ⟨corpusInv_addUNK h1, mem_vocab_addUNK _⟩

theorem corpusInv_initState : CorpusInv initState := by
  refine ⟨rfl, List.nodup_nil, rfl, rfl, rfl, ?_⟩
  intro p hp
  simp [initState] at hp

theorem corpusInv_grp {s : ArticleCorpus} (h : CorpusInv s) :
    CorpusInv (get_rejection_prob s) := h

theorem corpusInvU_grp {s : ArticleCorpus} (h : CorpusInvU s) :
    CorpusInvU (get_rejection_prob s) := h

theorem corpusInvU_constructState (d : List (List String)) :
    CorpusInvU (constructState d) :=
  corpusInvU_grp (corpusInvU_add_data corpusInv_initState d)

theorem corpusInvU_foldl_add_data {s : ArticleCorpus} (h : CorpusInvU s)
    (batches : List (List (List String))) :
    CorpusInvU (batches.foldl add_data s) := by
  induction batches generalizing s with
  | nil => exact h
  | cons b bs ih => exact ih (corpusInvU_add_data h.1 b)

theorem corpusInvU_reachable (d : List (List String))
    (batches : List (List (List String))) :
    CorpusInvU (batches.foldl add_data (constructState d)) :=
  corpusInvU_foldl_add_data (corpusInvU_constructState d) batches

/-! ### Supporting lemmas for the context-pair sampler -/

theorem context_attempt_spec {doc_text : List String} {c_idx window : Nat} {c : String}
    {ctx : List String} (h : context_attempt doc_text c_idx window = some (c, ctx)) :
    ctx ≠ [] ∧ c ∉ ctx := by
  simp only [context_attempt] at h
  split at h
  case isTrue hlen =>
    obtain ⟨rfl, rfl⟩ : doc_text.getD c_idx "" = c ∧
        (raw_context doc_text c_idx window).filter
          (fun w => w ≠ doc_text.getD c_idx "") = ctx := by
      have := Option.some.inj h
      exact ⟨congrArg Prod.fst this, congrArg Prod.snd this⟩
    constructor
    · exact List.ne_nil_of_length_pos hlen
    · intro hmem
      have := (List.mem_filter.1 hmem).2
      simp at this
  case isFalse => exact absurd h (by simp)

/-! ### Supporting lemmas for UNK frequency tracking -/

theorem unk_freq_add_data {s : ArticleCorpus} (hmem : "UNK" ∈ s.vocab)
    (b : List (List String)) (hb : "UNK" ∉ b.flatten) :
    lookupA (add_data s b).word_to_freq "UNK" = lookupA s.word_to_freq "UNK" := by
  unfold add_data
  have h1 : "UNK" ∈ (b.flatten.foldl addWord { s with corpus := s.corpus ++ b }).vocab :=
    mem_vocab_foldl_addWord _ _ hmem
  unfold addUNK
  rw [if_pos h1]
  exact foldl_addWord_freq_lookup _ _ hb

theorem unk_freq_constructState (d : List (List String)) (hd : "UNK" ∉ d.flatten) :
    lookupA (constructState d).word_to_freq "UNK" = some 1 := by
  unfold constructState
  rw [grp_word_to_freq]
  unfold add_data
  set t := d.flatten.foldl addWord { initState with corpus := initState.corpus ++ d } with ht
  have hnot : "UNK" ∉ t.vocab := by
    intro hmem
    rcases mem_vocab_foldl_cases _ _ hmem with h' | h'
    · simp [initState] at h'
    · exact hd h'
  unfold addUNK
  rw [if_neg hnot]
  show lookupA (updateA t.word_to_freq "UNK" 1) "UNK" = some 1
  exact lookupA_updateA_self _ _ _

theorem unk_freq_foldl (batches : List (List (List String))) {s : ArticleCorpus}
    (hmem : "UNK" ∈ s.vocab) (hs : lookupA s.word_to_freq "UNK" = some 1)
    (hb : ∀ b ∈ batches, "UNK" ∉ b.flatten) :
    lookupA (batches.foldl add_data s).word_to_freq "UNK" = some 1 := by
  induction batches generalizing s with
  | nil => exact hs
  | cons b bs ih =>
    rw [List.foldl_cons]
    refine ih (mem_vocab_addUNK _) ?_ (fun b' hb' => hb b' (List.mem_cons_of_mem _ hb'))
    rw [unk_freq_add_data hmem b (hb b (List.mem_cons_self _ _))]
    exact hs

/-! ### Claim theorems -/

/-- C1 (counterexample): for the filtered document `["a","b","c"]`, center
position 0 and window size 2, the context built by `get_random_context`
before center-word removal is `["b"]`, not the `["b","c"]` that "up to
`windowSize` tokens immediately following the center position" demands. -/
theorem C1_counterexample :
    context_attempt ["a", "b", "c"] 0 2 = some ("a", ["b"]) ∧
    raw_context ["a", "b", "c"] 0 2 = ["b"] ∧
    spec_context ["a", "b", "c"] 0 2 = ["b", "c"] ∧
    raw_context ["a", "b", "c"] 0 2 ≠ spec_context ["a", "b", "c"] 0 2 := by decide

/-- C1 (amended): the pre-removal context consists of up to `window` filtered
tokens immediately preceding the center position (clamped to the start)
concatenated with up to `window - 1` filtered tokens immediately following it
(clamped to the end). -/
theorem right_slice_eq (d : List String) (c w : Nat) (h : c + 1 < d.length) :
    (d.take (min (c + w) d.length)).drop (c + 1) = (d.drop (c + 1)).take (w - 1) := by
  rw [List.drop_take]
  rcases le_or_lt (c + w) d.length with hcw | hcw
  · rw [min_eq_left hcw]
    congr 1
    omega
  · rw [min_eq_right (le_of_lt hcw)]
    rw [List.take_of_length_le (le_of_eq (List.length_drop _ _)),
      List.take_of_length_le (by rw [List.length_drop]; omega)]

theorem C1_window_shape (doc_text : List String) (c_idx window : Nat) :
    raw_context doc_text c_idx window =
      (doc_text.take c_idx).drop (c_idx - window) ++
        (doc_text.drop (c_idx + 1)).take (window - 1) := by
  unfold raw_context
  by_cases h : c_idx + 1 < doc_text.length
  · rw [if_pos h, right_slice_eq _ _ _ h]
  · rw [if_neg h]
    have h2 : doc_text.drop (c_idx + 1) = [] := List.drop_eq_nil_of_le (by omega)
    rw [h2, List.take_nil, List.append_nil]

/-- C2 (counterexample): ingesting a document that contains the literal token
`UNK` after construction increments `UNK`'s frequency to 2, so the frequency
is not 1 "regardless of the tokens the ingested documents contain". -/
theorem C2_counterexample :
    lookupA (add_data (constructState [["a"]]) [["UNK"]]).word_to_freq "UNK" = some 2 := by
  rfl

/-- C2 (amended): after any construction and any further ingestions — with no
restriction on the tokens the ingested documents contain — the token `UNK`
occurs exactly once in the vocabulary; and provided no ingested document
contains the literal token `UNK`, its `word_frequency` entry is exactly 1
(ingestion of `UNK`-free batches never increments it; a document that does
contain the token `UNK` has it counted like any other token). -/
theorem C2_unk_invariant (d : List (List String)) (batches : List (List (List String))) :
    (batches.foldl add_data (constructState d)).vocab.count "UNK" = 1 ∧
    ("UNK" ∉ d.flatten → (∀ b ∈ batches, "UNK" ∉ b.flatten) →
      lookupA (batches.foldl add_data (constructState d)).word_to_freq "UNK" = some 1) := by
  obtain ⟨⟨_, hnodup, _, _, _, _⟩, hmem⟩ := corpusInvU_reachable d batches
  constructor
  · exact List.count_eq_one_of_mem hnodup hmem
  · intro hd hb
    exact unk_freq_foldl batches (corpusInvU_constructState d).2
      (unk_freq_constructState d hd) hb

/-- C2 (witness): the amended invariant evaluated on the concrete construction
`[["a"]]` followed by ingesting `[["b"]]`, with the UNK-free side conditions of
the frequency conjunct discharged concretely. -/
theorem C2_witness :
    (([[["b"]]] : List (List (List String))).foldl add_data
        (constructState [["a"]])).vocab.count "UNK" = 1 ∧
    ("UNK" ∉ ([["a"]] : List (List String)).flatten) ∧
    (∀ b ∈ ([[["b"]]] : List (List (List String))), "UNK" ∉ b.flatten) ∧
    lookupA (([[["b"]]] : List (List (List String))).foldl add_data
        (constructState [["a"]])).word_to_freq "UNK" = some 1 :=
  ⟨(C2_unk_invariant [["a"]] [[["b"]]]).1, by decide, by decide,
    (C2_unk_invariant [["a"]] [[["b"]]]).2 (by decide) (by decide)⟩

/-- C6: every `(centerWord, contextWords)` pair that `get_random_context`
returns (after any number of retries) has a non-empty context in which the
center word does not occur. -/
theorem C6_returned_pair (window : Nat) (tries : Nat → List String × Nat) (fuel : Nat)
    (c : String) (ctx : List String)
    (h : get_random_context_fuel window tries fuel = some (c, ctx)) :
    ctx ≠ [] ∧ c ∉ ctx := by
  induction fuel with
  | zero => exact absurd h (by simp [get_random_context_fuel])
  | succ n ih =>
    rw [get_random_context_fuel] at h
    rcases hca : context_attempt (tries n).1 (tries n).2 window with _ | p
    · rw [hca] at h
      exact ih h
    · rw [hca] at h
      obtain rfl : p = (c, ctx) := Option.some.inj h
      exact context_attempt_spec hca

/-- C6 (witness): a concrete successful call, on the filtered document
`["a","b"]` with center position 0 and window 2. -/
theorem C6_witness :
    get_random_context_fuel 2 (fun _ => (["a", "b"], 0)) 1 = some ("a", ["b"]) ∧
    (["b"] ≠ ([] : List String) ∧ "a" ∉ ["b"]) :=
  ⟨by decide, C6_returned_pair 2 (fun _ => (["a", "b"], 0)) 1 "a" ["b"] (by decide)⟩

/-- C8: constructing the index from `[["a","b","a","c"],["b","b","d"]]` yields
`vocab_size = 5` with vocabulary `a,b,c,d,UNK` (in first-seen order), word
frequencies `a:2, b:3, c:1, d:1, UNK:1`, and `corpus_size = 7`. -/
theorem C8_example :
    (constructState [["a", "b", "a", "c"], ["b", "b", "d"]]).vocab_size = 5 ∧
    (constructState [["a", "b", "a", "c"], ["b", "b", "d"]]).vocab =
      ["a", "b", "c", "d", "UNK"] ∧
    (constructState [["a", "b", "a", "c"], ["b", "b", "d"]]).word_to_freq =
      [("a", 2), ("b", 3), ("c", 1), ("d", 1), ("UNK", 1)] ∧
    (constructState [["a", "b", "a", "c"], ["b", "b", "d"]]).corpus_size = 7 :=
  ⟨rfl, rfl, rfl, rfl⟩

/-- C9: `add_data` never touches the rejection-probability table — it appends
the batch to the document store and updates the vocabulary statistics, but
`_word_to_rejection_prob` is left exactly as it was (the staleness contract). -/
theorem C9_frame (s : ArticleCorpus) (data : List (List String)) :
    (add_data s data).word_to_rejection_prob = s.word_to_rejection_prob ∧
    (add_data s data).corpus = s.corpus ++ data := by
  constructor
  · unfold add_data
    rw [addUNK_rp, foldl_addWord_rp]
  · unfold add_data
    rw [addUNK_corpus, foldl_addWord_corpus]

/-- C10: the rejection-probability lookup in `get_random_context`'s filter is
partial.  In the reachable state obtained by constructing from `[["a"]]` and
then ingesting `[["b","c"]]` without recomputation, document 1 contains the
new word `b`, which is missing from `_word_to_rejection_prob`; filtering that
document fails with a `KeyError` on `b` (for every random source), instead of
returning a pair or treating `b` as never rejected. -/
theorem C10_missing_key (r : Nat → ℝ) :
    (add_data (constructState [["a"]]) [["b", "c"]]).corpus.getD 1 [] = ["b", "c"] ∧
    lookupA (add_data (constructState [["a"]]) [["b", "c"]]).word_to_rejection_prob
      "b" = none ∧
    filter_doc (add_data (constructState [["a"]]) [["b", "c"]]) r
      ((add_data (constructState [["a"]]) [["b", "c"]]).corpus.getD 1 []) 0 =
      Except.error "b" := by
  refine ⟨rfl, rfl, ?_⟩
  show filter_doc _ r ["b", "c"] 0 = Except.error "b"
  rw [filter_doc]
  have : lookupA (add_data (constructState [["a"]]) [["b", "c"]]).word_to_rejection_prob
      "b" = none := rfl
  rw [this]

/-! ### The index maps under the structural invariant -/

theorem corpusInv_index_maps {s : ArticleCorpus} (h : CorpusInv s) :
    (∀ w i, lookupA s.word_to_idx w = some i → lookupA s.idx_to_word i = some w) ∧
    (∀ i w, lookupA s.idx_to_word i = some w → lookupA s.word_to_idx w = some i) ∧
    s.idx_to_word.map Prod.fst = List.range s.vocab_size ∧
    (∀ i w, s.vocab.get? i = some w →
      lookupA s.word_to_idx w = some i ∧ lookupA s.idx_to_word i = some w) := by
  obtain ⟨hsize, hnodup, hidx, hitw, -, -⟩ := h
  have hswap : ∀ w, lookupA s.word_to_idx w =
      if w ∈ s.vocab then some (s.vocab.indexOf w) else none := by
    intro w
    rw [hidx, lookupA_enumF_swap]
    simp
  have henum : ∀ i, lookupA s.idx_to_word i = s.vocab.get? i := by
    intro i
    rw [hitw, lookupA_enumF]
    simp
  have hfirst : ∀ i w, s.vocab.get? i = some w → s.vocab.indexOf w = i := by
    intro i w hw
    have hmem : w ∈ s.vocab := List.get?_mem hw
    have hlt2 : s.vocab.indexOf w < s.vocab.length := List.indexOf_lt_length.2 hmem
    obtain ⟨hlt, hgi⟩ := List.get?_eq_some.1 hw
    exact (List.Nodup.getElem_inj_iff hnodup).1
      ((List.getElem_indexOf hlt2).trans hgi.symm)
  refine ⟨?_, ?_, ?_, ?_⟩
  · intro w i hw
    rw [hswap] at hw
    split at hw
    case isTrue hmem =>
      obtain rfl : s.vocab.indexOf w = i := Option.some.inj hw
      have hlt : s.vocab.indexOf w < s.vocab.length := List.indexOf_lt_length.2 hmem
      rw [henum, List.get?_eq_get hlt]
      simp [List.getElem_indexOf]
    case isFalse => exact absurd hw (by simp)
  · intro i w hw
    rw [henum] at hw
    have hmem : w ∈ s.vocab := List.get?_mem hw
    rw [hswap, if_pos hmem, hfirst i w hw]
  · rw [hitw, enumF_map_fst, hsize, List.range_eq_range']
  · intro i w hw
    have hmem : w ∈ s.vocab := List.get?_mem hw
    constructor
    · rw [hswap, if_pos hmem, hfirst i w hw]
    · rw [henum]
      exact hw

/-- C7: in every state reachable by construction followed by any sequence of
ingestions, `word_to_idx` and `idx_to_word` are mutual inverses over the
vocabulary, the assigned indices are exactly the contiguous range
`[0, vocab_size)` with no duplicates, and each word's index is its position in
the first-seen vocabulary order. -/
theorem C7_index_bijection (d : List (List String)) (batches : List (List (List String))) :
    (∀ w i, lookupA (reachState d batches).word_to_idx w = some i →
      lookupA (reachState d batches).idx_to_word i = some w) ∧
    (∀ i w, lookupA (reachState d batches).idx_to_word i = some w →
      lookupA (reachState d batches).word_to_idx w = some i) ∧
    (reachState d batches).idx_to_word.map Prod.fst =
      List.range (reachState d batches).vocab_size ∧
    (∀ i w, (reachState d batches).vocab.get? i = some w →
      lookupA (reachState d batches).word_to_idx w = some i ∧
      lookupA (reachState d batches).idx_to_word i = some w) :=
  corpusInv_index_maps (corpusInvU_reachable d batches).1

/-! ### Rejection-probability computation -/

theorem rp_fold_skip (s : ArticleCorpus) (l : List Nat) (m : List (String × ℝ))
    (w : String) (hw : ∀ j ∈ l, s.vocab.getD j "" ≠ w) :
    lookupA (l.foldl (fun m i =>
        let word := s.vocab.getD i ""
        updateA m word (rejection_prob_value (lookupD s.word_to_freq word 0))) m) w =
      lookupA m w := by
  induction l generalizing m with
  | nil => rfl
  | cons i l ih =>
    rw [List.foldl_cons, ih _ (fun j hj => hw j (List.mem_cons_of_mem _ hj))]
    exact lookupA_updateA_ne _ _ (fun he => hw i (List.mem_cons_self _ _) he.symm)

theorem rp_fold_write (s : ArticleCorpus) (l : List Nat) (m : List (String × ℝ))
    (w : String) (hw : ∃ i ∈ l, s.vocab.getD i "" = w) :
    lookupA (l.foldl (fun m i =>
        let word := s.vocab.getD i ""
        updateA m word (rejection_prob_value (lookupD s.word_to_freq word 0))) m) w =
      some (rejection_prob_value (lookupD s.word_to_freq w 0)) := by
  induction l generalizing m with
  | nil => simp at hw
  | cons i l ih =>
    by_cases hl : ∃ j ∈ l, s.vocab.getD j "" = w
    · rw [List.foldl_cons]
      exact ih _ hl
    · push_neg at hl
      have hi : s.vocab.getD i "" = w := by
        rcases hw with ⟨j, hj, hjw⟩
        rcases List.mem_cons.1 hj with rfl | hj'
        · exact hjw
        · exact absurd hjw (hl j hj')
      rw [List.foldl_cons, rp_fold_skip s l _ w hl]
      show lookupA (updateA m (s.vocab.getD i "") _) w = _
      rw [hi, lookupA_updateA_self]

theorem rp_lookup_after_compute {s : ArticleCorpus} (hsize : s.vocab_size = s.vocab.length)
    {w : String} (hw : w ∈ s.vocab) {f : Nat} (hf : lookupA s.word_to_freq w = some f) :
    lookupA (get_rejection_prob s).word_to_rejection_prob w =
      some (rejection_prob_value f) := by
  have hex : ∃ i ∈ List.range s.vocab_size, s.vocab.getD i "" = w := by
    refine ⟨s.vocab.indexOf w, ?_, ?_⟩
    · rw [List.mem_range, hsize]
      exact List.indexOf_lt_length.2 hw
    · rw [List.getD_eq_getElem _ _ (List.indexOf_lt_length.2 hw)]
      exact List.getElem_indexOf _
  show lookupA ((List.range s.vocab_size).foldl _ s.word_to_rejection_prob) w = _
  rw [rp_fold_write s _ _ w hex]
  unfold lookupD
  rw [hf]
  rfl

theorem rejection_prob_value_zero {f : Nat} (h1 : 1 ≤ f)
    (hle : (f : ℝ) ≤ subsampling_threshold) : rejection_prob_value f = 0 := by
  unfold rejection_prob_value
  have hf : (0 : ℝ) < f := by exact_mod_cast h1
  have hdiv : 1 ≤ subsampling_threshold / (f : ℝ) := (one_le_div hf).2 hle
  have hsqrt : 1 ≤ Real.sqrt (subsampling_threshold / (f : ℝ)) := by
    rw [show (1 : ℝ) = Real.sqrt 1 by simp]
    exact Real.sqrt_le_sqrt hdiv
  exact max_eq_left (by linarith)

theorem rejection_prob_value_strict_mono {f1 f2 : Nat}
    (h1 : subsampling_threshold < (f1 : ℝ)) (h12 : f1 < f2) :
    rejection_prob_value f1 < rejection_prob_value f2 := by
  unfold rejection_prob_value
  have ht : (0 : ℝ) < subsampling_threshold := by norm_num [subsampling_threshold]
  have hf1 : (0 : ℝ) < f1 := lt_trans ht h1
  have hf2 : (0 : ℝ) < f2 := by
    have : (f1 : ℝ) < f2 := by exact_mod_cast h12
    linarith
  have hdiv2 : subsampling_threshold / (f2 : ℝ) < subsampling_threshold / (f1 : ℝ) :=
    div_lt_div_of_pos_left ht hf1 (by exact_mod_cast h12)
  have hdiv1 : subsampling_threshold / (f1 : ℝ) < 1 := (div_lt_one hf1).2 h1
  have hsq2 : Real.sqrt (subsampling_threshold / (f2 : ℝ)) <
      Real.sqrt (subsampling_threshold / (f1 : ℝ)) :=
    Real.sqrt_lt_sqrt (le_of_lt (div_pos ht hf2)) hdiv2
  have hsq1 : Real.sqrt (subsampling_threshold / (f1 : ℝ)) < 1 := by
    rw [show (1 : ℝ) = Real.sqrt 1 by simp]
    exact Real.sqrt_lt_sqrt (le_of_lt (div_pos ht hf1)) hdiv1
  rw [max_eq_right (by linarith), max_eq_right (by linarith)]
  linarith

/-- C4: after `_get_rejection_prob`, every vocabulary word `w` of frequency
`f` gets `rejection_probability[w] = max(0, 1 - sqrt(threshold / f))`; every
frequency at or below the threshold gets rejection probability exactly 0, and
above the threshold the rejection probability strictly increases with the
frequency. -/
theorem C4_rejection_prob (s : ArticleCorpus) (w : String) (f : Nat)
    (hsize : s.vocab_size = s.vocab.length) (hw : w ∈ s.vocab)
    (hf : lookupA s.word_to_freq w = some f) :
    lookupA (get_rejection_prob s).word_to_rejection_prob w =
      some (max 0 (1 - Real.sqrt (subsampling_threshold / (f : ℝ)))) ∧
    (∀ g : Nat, 1 ≤ g → (g : ℝ) ≤ subsampling_threshold →
      rejection_prob_value g = 0) ∧
    (∀ g1 g2 : Nat, subsampling_threshold < (g1 : ℝ) → g1 < g2 →
      rejection_prob_value g1 < rejection_prob_value g2) :=
  ⟨rp_lookup_after_compute hsize hw hf,
   fun _ h1 h2 => rejection_prob_value_zero h1 h2,
   fun _ _ h1 h2 => rejection_prob_value_strict_mono h1 h2⟩

/-- C4 (witness): the rejection-probability contract applied to the state
built from `[["a"]]`, at the word `a` of frequency 1. -/
theorem C4_witness :
    (add_data initState [["a"]]).vocab_size = (add_data initState [["a"]]).vocab.length ∧
    "a" ∈ (add_data initState [["a"]]).vocab ∧
    lookupA (add_data initState [["a"]]).word_to_freq "a" = some 1 ∧
    (lookupA (get_rejection_prob (add_data initState [["a"]])).word_to_rejection_prob
        "a" = some (max 0 (1 - Real.sqrt (subsampling_threshold / ((1 : Nat) : ℝ)))) ∧
      (∀ g : Nat, 1 ≤ g → (g : ℝ) ≤ subsampling_threshold →
        rejection_prob_value g = 0) ∧
      (∀ g1 g2 : Nat, subsampling_threshold < (g1 : ℝ) → g1 < g2 →
        rejection_prob_value g1 < rejection_prob_value g2)) :=
  ⟨by decide, by decide, by decide,
    C4_rejection_prob (add_data initState [["a"]]) "a" 1 (by decide) (by decide) (by decide)⟩

/-! ### Negative sampling -/

theorem expandAux_length (i : Nat) (cs : List Nat) :
    (expandAux i cs).length = cs.sum := by
  induction cs generalizing i with
  | nil => rfl
  | cons c cs ih => simp [expandAux, ih]

theorem expandAux_mem {x : Nat} (i : Nat) (cs : List Nat) (h : x ∈ expandAux i cs) :
    i ≤ x ∧ x < i + cs.length := by
  induction cs generalizing i with
  | nil => simp [expandAux] at h
  | cons c cs ih =>
    rcases List.mem_append.1 h with h' | h'
    · obtain ⟨-, rfl⟩ := List.mem_replicate.1 h'
      simp
    · have := ih (i + 1) h'
      constructor <;> [omega; (simp only [List.length_cons]; omega)]

theorem replicate_sorted (c i : Nat) : (List.replicate c i).Sorted (· ≤ ·) := by
  induction c with
  | zero => exact List.sorted_nil
  | succ n ih =>
    rw [List.replicate_succ]
    exact List.sorted_cons.2 ⟨fun b hb => le_of_eq (List.eq_of_mem_replicate hb).symm, ih⟩

theorem expandAux_sorted (i : Nat) (cs : List Nat) :
    (expandAux i cs).Sorted (· ≤ ·) := by
  induction cs generalizing i with
  | nil => exact List.sorted_nil
  | cons c cs ih =>
    refine List.pairwise_append.2 ⟨replicate_sorted c i, ih (i + 1), ?_⟩
    intro a ha b hb
    have hai : a = i := (List.mem_replicate.1 ha).2
    have hbi := (expandAux_mem (i + 1) cs hb).1
    omega

theorem normalizing_factor_pos {s : ArticleCorpus} (h : CorpusInvU s) :
    0 < normalizing_factor s := by
  obtain ⟨⟨-, -, -, -, hfreq, hpos⟩, hmem⟩ := h
  rw [← hfreq] at hmem
  rcases List.mem_map.1 hmem with ⟨p, hp, -⟩
  have h1 : (1 : ℝ) ≤ w75 p.2 := by
    have : (1 : ℝ) ≤ (p.2 : ℝ) := by exact_mod_cast hpos p hp
    calc (1 : ℝ) = (1 : ℝ) ^ (0.75 : ℝ) := by rw [Real.one_rpow]
    _ ≤ (p.2 : ℝ) ^ (0.75 : ℝ) := Real.rpow_le_rpow (by norm_num) this (by norm_num)
    _ = w75 p.2 := rfl
  have hsum : w75 p.2 ≤ normalizing_factor s := by
    unfold normalizing_factor
    refine List.single_le_sum ?_ _ (List.mem_map_of_mem _ hp)
    intro x hx
    rcases List.mem_map.1 hx with ⟨q, -, rfl⟩
    exact Real.rpow_nonneg (Nat.cast_nonneg _) _
  linarith

theorem sampling_probs_getD (s : ArticleCorpus) (i : Nat) (p : String × Nat)
    (hi : i < s.vocab_size) (hp : s.word_to_freq.get? i = some p) :
    (sampling_probs s).getD i 0 = w75 p.2 / normalizing_factor s := by
  have hlen : i < (sampling_probs s).length := by
    simpa [sampling_probs] using hi
  rw [List.getD_eq_getElem _ _ hlen]
  unfold sampling_probs
  rw [List.getElem_map]
  rw [List.getElem_range]
  rw [hp]

/-- C5: every production of `sample_negative_words` (for any production index,
i.e. regardless of how many productions preceded it) is a list of exactly `k`
vocabulary indices in `[0, vocab_size)`, listed in non-decreasing order; and
the weight vector the draws are taken from assigns the `i`-th vocabulary word
(`UNK` included) mass `freq ** 0.75` divided by the normalizing factor. -/
theorem C5_negative_sampling (s : ArticleCorpus) (h : CorpusInvU s) (k : Nat)
    (draws : Nat → List Nat) (hdraws : ∀ n, MultinomialDraw s k (draws n)) (n : Nat) :
    (sample_negative_words s k draws n).length = k ∧
    (∀ i ∈ sample_negative_words s k draws n, i < s.vocab_size) ∧
    (sample_negative_words s k draws n).Sorted (· ≤ ·) ∧
    "UNK" ∈ s.vocab ∧
    (∀ i p, s.word_to_freq.get? i = some p →
      s.vocab.get? i = some p.1 ∧
      (sampling_probs s).getD i 0 * normalizing_factor s = w75 p.2) := by
  obtain ⟨hdlen, hdsum⟩ := hdraws n
  have hZ : 0 < normalizing_factor s := normalizing_factor_pos h
  obtain ⟨⟨hsize, hnodup, hidx, hitw, hfreq, hpos⟩, hmem⟩ := h
  refine ⟨?_, ?_, expandAux_sorted 0 (draws n), hmem, ?_⟩
  · show (expandAux 0 (draws n)).length = k
    rw [expandAux_length, hdsum]
  · intro i hi
    have h2 := (expandAux_mem 0 (draws n) hi).2
    omega
  · intro i p hp
    have hlt : i < s.word_to_freq.length := by
      rcases List.get?_eq_some.1 hp with ⟨h1, -⟩
      exact h1
    have hivs : i < s.vocab_size := by
      have hll : s.word_to_freq.length = s.vocab.length := by
        rw [← hfreq, List.length_map]
      omega
    refine ⟨?_, ?_⟩
    · rw [← hfreq, List.get?_map, hp, Option.map_some']
    · rw [sampling_probs_getD s i p hivs hp]
      exact div_mul_cancel₀ _ (ne_of_gt hZ)

/-- C5 (witness): the sampling contract applied to the state built from
`[["a"]]` (vocabulary `a, UNK`), requesting 2 negatives with the concrete
multinomial draw `[1, 1]` on every production. -/
theorem C5_witness :
    CorpusInvU (add_data initState [["a"]]) ∧
    MultinomialDraw (add_data initState [["a"]]) 2 [1, 1] ∧
    ((sample_negative_words (add_data initState [["a"]]) 2 (fun _ => [1, 1]) 0).length = 2 ∧
      (∀ i ∈ sample_negative_words (add_data initState [["a"]]) 2 (fun _ => [1, 1]) 0,
        i < (add_data initState [["a"]]).vocab_size) ∧
      (sample_negative_words (add_data initState [["a"]]) 2
        (fun _ => [1, 1]) 0).Sorted (· ≤ ·) ∧
      "UNK" ∈ (add_data initState [["a"]]).vocab ∧
      (∀ i p, (add_data initState [["a"]]).word_to_freq.get? i = some p →
        (add_data initState [["a"]]).vocab.get? i = some p.1 ∧
        (sampling_probs (add_data initState [["a"]])).getD i 0 *
          normalizing_factor (add_data initState [["a"]]) = w75 p.2)) := by
  have hInv : CorpusInvU (add_data initState [["a"]]) := by
    unfold CorpusInvU CorpusInv
    decide
  have hdraw : MultinomialDraw (add_data initState [["a"]]) 2 [1, 1] := by
    unfold MultinomialDraw
    decide
  exact ⟨hInv, hdraw,
    C5_negative_sampling (add_data initState [["a"]]) hInv 2 (fun _ => [1, 1])
      (fun _ => hdraw) 0⟩

/-! ### Dynamic behaviour of the constructor's validation -/

theorem processTokens_ok_iff (ts : List PyVal) :
    processTokens ts = .ok () ↔ ∀ t ∈ ts, isListV t = false := by
  induction ts with
  | nil => simp [processTokens]
  | cons t ts ih =>
    by_cases h : isListV t
    · simp [processTokens, h]
    · simp only [Bool.not_eq_true] at h
      simp [processTokens, h, ih]

theorem processTokens_err (ts : List PyVal) :
    processTokens ts = .ok () ∨ processTokens ts = .error .typeError := by
  induction ts with
  | nil => exact Or.inl rfl
  | cons t ts ih =>
    by_cases h : isListV t
    · simp [processTokens, h]
    · simp only [Bool.not_eq_true] at h
      simpa [processTokens, h] using ih

theorem processArticles_ok_iff (l : List PyVal) :
    processArticles l = .ok () ↔
      ∀ a ∈ l, isIterableV a = true ∧ ∀ t ∈ tokensOf a, isListV t = false := by
  induction l with
  | nil => simp [processArticles]
  | cons a rest ih =>
    by_cases h : isIterableV a
    · rcases processTokens_err (tokensOf a) with hok | herr
      · have htok := (processTokens_ok_iff (tokensOf a)).1 hok
        have hstep : processArticles (a :: rest) = processArticles rest := by
          simp [processArticles, h, hok]
        rw [hstep, ih, List.forall_mem_cons]
        simp only [h, true_and]
        exact ⟨fun hrest => ⟨htok, hrest⟩, fun hh => hh.2⟩
      · have htok : ¬∀ t ∈ tokensOf a, isListV t = false := by
          intro hall
          rw [(processTokens_ok_iff (tokensOf a)).2 hall] at herr
          exact absurd herr (by simp)
        simp [processArticles, h, herr, htok]
    · simp only [Bool.not_eq_true] at h
      simp [processArticles, h]

theorem processArticles_err (l : List PyVal) :
    processArticles l = .ok () ∨ processArticles l = .error .typeError := by
  induction l with
  | nil => exact Or.inl rfl
  | cons a rest ih =>
    by_cases h : isIterableV a
    · rcases processTokens_err (tokensOf a) with hok | herr
      · simpa [processArticles, h, hok] using ih
      · simp [processArticles, h, herr]
    · simp only [Bool.not_eq_true] at h
      simp [processArticles, h]

theorem vlist_cons_inj {x x' : PyVal} {xs xs' : List PyVal}
    (h : PyVal.vlist (x :: xs) = PyVal.vlist (x' :: xs')) : x = x' ∧ xs = xs' := by
  injection h with h1
  injection h1 with h2 h3
  exact ⟨h2, h3⟩

/-- C3 (counterexample): constructing from the empty outer sequence fails with
an `IndexError` from the `corpus[0]` subscript, not with the
`InvalidInputError` (assertion failure) the claim requires. -/
theorem C3_counterexample :
    constructPy (PyVal.vlist []) = Except.error PyErr.indexError ∧
    isInvalidInputErr (constructPy (PyVal.vlist [])) = false :=
  ⟨rfl, rfl⟩

/-- C3 (amended): `__init__` raises `InvalidInputError` (an assertion failure)
exactly when the input is not a list or is a non-empty list whose first
element is not a list; the empty list instead raises an `IndexError` at
`corpus[0]`; and construction succeeds exactly when the input is a non-empty
list whose first element is a list and whose every element is iterable with no
list-valued token (otherwise the token loop raises a `TypeError`). -/
theorem C3_error_classes (v : PyVal) :
    (isInvalidInputErr (constructPy v) = true ↔
      isListV v = false ∨ ∃ x xs, v = .vlist (x :: xs) ∧ isListV x = false) ∧
    (constructPy v = .error .indexError ↔ v = .vlist []) ∧
    (constructPy v = .ok () ↔
      ∃ x xs, v = .vlist (x :: xs) ∧ isListV x = true ∧
        ∀ a ∈ x :: xs, isIterableV a = true ∧ ∀ t ∈ tokensOf a, isListV t = false) := by
  match v with
  | .vstr s =>
    refine ⟨?_, ?_, ?_⟩
    · simp [constructPy, isInvalidInputErr, isListV]
    · simp [constructPy]
    · simp [constructPy]
  | .vint n =>
    refine ⟨?_, ?_, ?_⟩
    · simp [constructPy, isInvalidInputErr, isListV]
    · simp [constructPy]
    · simp [constructPy]
  | .vlist [] =>
    refine ⟨?_, ?_, ?_⟩
    · simp [constructPy, isInvalidInputErr, isListV]
    · simp [constructPy]
    · simp [constructPy]
  | .vlist (x :: xs) =>
    by_cases hx : isListV x
    · have hcp : constructPy (.vlist (x :: xs)) = processArticles (x :: xs) := by
        simp [constructPy, hx]
      refine ⟨?_, ?_, ?_⟩
      · rw [hcp]
        constructor
        · intro h
          rcases processArticles_err (x :: xs) with hok | herr
          · rw [hok] at h
            exact absurd h (by simp [isInvalidInputErr])
          · rw [herr] at h
            exact absurd h (by simp [isInvalidInputErr])
        · intro h
          rcases h with h | ⟨x', xs', hv, hx'⟩
          · exact absurd h (by simp [isListV])
          · obtain ⟨rfl, rfl⟩ : x = x' ∧ xs = xs' := vlist_cons_inj hv
            exact absurd hx' (by simp [hx])
      · rw [hcp]
        constructor
        · intro h
          rcases processArticles_err (x :: xs) with hok | herr
          · rw [hok] at h
            exact absurd h (by simp)
          · rw [herr] at h
            exact absurd h (by simp)
        · intro h
          exact absurd (PyVal.vlist.inj h) (by simp)
      · rw [hcp]
        rw [processArticles_ok_iff]
        constructor
        · intro h
          exact ⟨x, xs, rfl, hx, h⟩
        · rintro ⟨x', xs', hv, -, hall⟩
          obtain ⟨rfl, rfl⟩ : x = x' ∧ xs = xs' := vlist_cons_inj hv
          exact hall
    · have hcp : constructPy (.vlist (x :: xs)) =
          .error (.assertionError "Error: corpus should be list of lists") := by
        simp [constructPy, hx]
      simp only [Bool.not_eq_true] at hx
      refine ⟨?_, ?_, ?_⟩
      · rw [hcp]
        simp only [isInvalidInputErr, true_iff]
        exact Or.inr ⟨x, xs, rfl, hx⟩
      · rw [hcp]
        simp
      · rw [hcp]
        constructor
        · intro h
          exact absurd h (by simp)
        · rintro ⟨x', xs', hv, hx', -⟩
          obtain ⟨rfl, rfl⟩ : x = x' ∧ xs = xs' := vlist_cons_inj hv
          exact absurd hx' (by simp [hx])
